import Mathlib

/-
Verification development for the cloudcat data-preview pipeline
(src/cloudcat/cli.py, src/cloudcat/compression.py, src/cloudcat/readers/).

The embedding models strings as lists of characters (Python `str.lower`
is modelled character-wise), Python ints as `Int` where sign matters
(the `--num-rows` limit) and as `Nat` where the claims only concern
non-negative values (offsets, sizes), file contents as the list of rows
the decoder would produce, and pandas DataFrames by the data the claims
are about (row lists, column-name lists, dtype mappings).  Fallible
Python code (raise) is modelled with `Except String`.
-/

namespace Cloudcat

/-- Decidable equality for `Except`, so that concrete runs of the fallible
operations can be evaluated inside proofs. -/
instance {ε α : Type} [DecidableEq ε] [DecidableEq α] : DecidableEq (Except ε α)
  | .ok a, .ok b =>
    if h : a = b then .isTrue (by rw [h]) else .isFalse (fun hc => h (Except.ok.inj hc))
  | .ok _, .error _ => .isFalse (fun hc => Except.noConfusion hc)
  | .error _, .ok _ => .isFalse (fun hc => Except.noConfusion hc)
  | .error e, .error f =>
    if h : e = f then .isTrue (by rw [h]) else .isFalse (fun hc => h (Except.error.inj hc))

/-- Character-wise lowering, modelling Python `str.lower()` on the
character ranges the pipeline deals with (ASCII file names). -/
def lowerChars (s : List Char) : List Char := s.map Char.toLower

/-! ## Compression resolver (src/cloudcat/compression.py) -/

/-- Modelled from the spec: the constant `COMPRESSION_EXTENSIONS` lives in
`cloudcat/config.py`, which is not present under src/; spec section 4.1 (and the
identical literal list in `strip_compression_extension` in src/cloudcat/cli.py,
lines 209-216) give the ordered suffix set. -/
def COMPRESSION_EXTENSIONS : List (List Char) :=
  [".gz".toList, ".gzip".toList, ".zst".toList, ".zstd".toList,
   ".lz4".toList, ".snappy".toList, ".bz2".toList]

/-- Embedding of `detect_compression` (src/cloudcat/compression.py lines 32-52,
identical to src/cloudcat/cli.py lines 162-175): case-insensitive suffix
dispatch to a compression kind. -/
def detect_compression (path : List Char) : Option String :=
  let pl := lowerChars path
  if ".gz".toList.isSuffixOf pl || ".gzip".toList.isSuffixOf pl then some "gzip"
  else if ".zst".toList.isSuffixOf pl || ".zstd".toList.isSuffixOf pl then some "zstd"
  else if ".lz4".toList.isSuffixOf pl then some "lz4"
  else if ".snappy".toList.isSuffixOf pl then some "snappy"
  else if ".bz2".toList.isSuffixOf pl then some "bz2"
  else none

/-- Embedding of `strip_compression_extension` (src/cloudcat/compression.py
lines 101-114): the first extension in the list that matches the lowered path
is removed from the original path by slicing `path[:-len(ext)]`. -/
def strip_compression_extension (path : List Char) : List Char :=
  let pl := lowerChars path
  match COMPRESSION_EXTENSIONS.find? (fun ext => ext.isSuffixOf pl) with
  | some ext => path.take (path.length - ext.length)
  | none => path

/-! ## File selection engine (src/cloudcat/cli.py, get_files_for_multiread) -/

/-- A directory-listing entry: object name and size in bytes. -/
abbrev FileEntry := String × Nat

/-- The metadata-skip patterns of cli.py line 405; each regex is a
case-sensitive end-of-string match. -/
def METADATA_SKIP_SUFFIXES : List String :=
  ["_SUCCESS", ".crc", ".committed", ".pending", "_metadata"]

/-- A name is metadata-like when any skip pattern matches its end
(re.search with a $-anchored pattern). -/
def isMetadataFile (name : String) : Bool :=
  METADATA_SKIP_SUFFIXES.any (fun p => p.toList.isSuffixOf name.toList)

/-- The closed set of input formats (cli.py --input-format choices). -/
inductive Fmt
  | csv | json | parquet | avro | orc | text
deriving DecidableEq

/-- The extension alternatives of each format regex in `format_ext_map`
(cli.py lines 422-429), all matched case-insensitively at end of name. -/
def formatExtensions : Fmt → List String
  | .csv => [".csv"]
  | .json => [".json", ".jsonl", ".ndjson"]
  | .parquet => [".parquet"]
  | .avro => [".avro"]
  | .orc => [".orc"]
  | .text => [".txt", ".log"]

/-- Case-insensitive format-extension match (re.search with re.IGNORECASE and
a $-anchored alternative group). -/
def matchesFormat (fmt : Fmt) (name : String) : Bool :=
  (formatExtensions fmt).any (fun e => e.toList.isSuffixOf (lowerChars name.toList))

/-- Entries of size strictly greater than zero (cli.py line 399). -/
def nonEmptyFiles (files : List FileEntry) : List FileEntry :=
  files.filter (fun f => 0 < f.2)

/-- Entries whose name matches no metadata-skip pattern (cli.py lines 405-411). -/
def nonMetadataFiles (files : List FileEntry) : List FileEntry :=
  files.filter (fun f => !isMetadataFile f.1)

/-- Metadata skipping with fallback (cli.py lines 413-418): if dropping
metadata files would empty the set, keep the pre-skip set and warn. -/
def applyMetadataSkip (files : List FileEntry) : List FileEntry :=
  let nm := nonMetadataFiles files
  if nm.isEmpty then files else nm

/-- Format filtering with fallback (cli.py lines 421-437): if the extension
filter would empty the set, keep the pre-filter set and warn. -/
def applyFormatFilter (files : List FileEntry) (fmt : Option Fmt) : List FileEntry :=
  match fmt with
  | none => files
  | some f =>
    let matching := files.filter (fun e => matchesFormat f e.1)
    if matching.isEmpty then files else matching

/-- Lexicographic code-point comparison of names, the ordering Python uses
when sorting strings. -/
def lexLe : List Char → List Char → Bool
  | [], _ => true
  | _ :: _, [] => false
  | a :: as, b :: bs => if a = b then lexLe as bs else decide (a < b)

/-- Insertion step of the by-name sort. -/
def insertFile (f : FileEntry) : List FileEntry → List FileEntry
  | [] => [f]
  | g :: rest => if lexLe f.1.toList g.1.toList then f :: g :: rest else g :: insertFile f rest

/-- Ascending sort by object name (cli.py line 440,
`filtered_files.sort(key=lambda x: x[0])`). -/
def sortFilesByName (files : List FileEntry) : List FileEntry :=
  files.foldr insertFile []

/-- Size-bounded accumulation (cli.py lines 444-452): append each file in
order, add its size, and break once the running total reaches the threshold.
The accumulator `total` is the running size total before the current file. -/
def selectLoop (maxBytes : Nat) : List FileEntry → Nat → List FileEntry
  | [], _ => []
  | f :: rest, total =>
    f :: (if maxBytes ≤ total + f.2 then [] else selectLoop maxBytes rest (total + f.2))

/-- Total size of a list of entries. -/
def sumSizes (files : List FileEntry) : Nat :=
  (files.map (fun f => f.2)).sum

/-- Embedding of `get_files_for_multiread` (cli.py lines 384-461) from the
listing onward: emptiness checks, metadata skip with fallback, format filter
with fallback, name sort, and size-bounded selection.  `maxBytes` is the
already-computed `max_size_mb * 1024 * 1024` threshold. -/
def get_files_for_multiread (files : List FileEntry) (fmt : Option Fmt) (maxBytes : Nat) :
    Except String (List FileEntry) :=
  if files.isEmpty then .error "No files found" else
  let nonEmpty := nonEmptyFiles files
  if nonEmpty.isEmpty then .error "No non-empty files found" else
  let filtered := applyFormatFilter (applyMetadataSkip nonEmpty) fmt
  let selected := selectLoop maxBytes (sortFilesByName filtered) 0
  if selected.isEmpty then .error "No suitable files found" else .ok selected

/-! ## Schema merge (src/cloudcat/cli.py lines 1005-1016) -/

/-- A per-file schema: the dtype mapping in pandas index order. -/
abbrev SchemaT := List (String × String)

/-- One assignment `all_columns[col] = ...` step of the merge loop: an existing
column keeps its dtype when it agrees and degrades to 'object' otherwise; a new
column is appended with its dtype (Python dict insertion order). -/
def setColumnType : SchemaT → String → String → SchemaT
  | [], c, d => [(c, d)]
  | (c0, d0) :: rest, c, d =>
    if c0 == c then (c0, if d0 == d then d0 else "object") :: rest
    else (c0, d0) :: setColumnType rest c d

/-- The schema merge of `read_data_from_multiple_files`: fold every
(column, dtype) pair of every recorded schema into the accumulator dict. -/
def mergeSchemas (schemas : List SchemaT) : SchemaT :=
  schemas.foldl (fun acc s => s.foldl (fun a cd => setColumnType a cd.1 cd.2) acc) []

/-- First-occurrence association lookup, the dict read `all_columns[col]`. -/
def lookupCol : SchemaT → String → Option String
  | [], _ => none
  | (c0, d0) :: rest, c => if c0 == c then some d0 else lookupCol rest c

/-- All dtypes recorded for a column across a schema list, in merge order. -/
def columnTypes (c : String) (schemas : List SchemaT) : List String :=
  (schemas.flatten.filter (fun p => p.1 == c)).map (fun p => p.2)

/-- Specification-side value of one column after merging: none when unseen, the
common dtype when all occurrences agree, the generic 'object' marker otherwise. -/
def mergedType : List String → Option String
  | [] => none
  | d :: rest => some (if rest.all (fun x => x == d) then d else "object")

/-- Cell-level effect of one merge step on one column's current value. -/
def mergeCell : Option String → String → Option String
  | none, d => some d
  | some cur, d => some (if cur == d then cur else "object")

/-! ## Column projection (src/cloudcat/cli.py read_csv_data lines 580-606,
src/cloudcat/readers/text.py read_text_data lines 47-57, and the refactored
src/cloudcat/readers/csv.py lines 40-48) -/

/-- The `valid_cols` computation: requested names that exist among the source
columns, in requested order. -/
def projectCols (cols avail : List String) : List String :=
  cols.filter (fun c => avail.contains c)

/-- Column projection as performed by the cli.py decoders: requested names are
intersected with the available columns and a warning is flagged when any
requested name is missing.  The second component is the warning flag. -/
def cliProjection (requested : Option (List String)) (avail : List String) :
    List String × Bool :=
  match requested with
  | none => (avail, false)
  | some cols =>
    let valid := projectCols cols avail
    (valid, valid.length != cols.length)

/-- Projection behaviour of `read_csv_data` in src/cloudcat/cli.py lines
580-606: the function never raises on unknown columns, so the embedding always
returns ok with the projected column list and the warning flag. -/
def read_csv_data (avail : List String) (requested : Option (List String)) :
    Except String (List String × Bool) :=
  .ok (cliProjection requested avail)

/-- Embedding of `read_text_data` (src/cloudcat/readers/text.py lines 24-57,
identical to cli.py lines 870-905): lines are truncated to `num_rows` when
positive, the fixed columns are line and line_number, and projection follows
the same non-failing cli scheme.  Returns (kept row count, projection). -/
def read_text_data (lines : List String) (numRows : Int)
    (requested : Option (List String)) : Except String (Nat × (List String × Bool)) :=
  let kept := if 0 < numRows then lines.take numRows.toNat else lines
  .ok (kept.length, cliProjection requested ["line", "line_number"])

/-- Projection behaviour of the refactored `read_csv_data` in
src/cloudcat/readers/csv.py lines 40-48, which raises when no requested
column exists. -/
def readers_csv_projection (avail : List String) (requested : Option (List String)) :
    Except String (List String × Bool) :=
  match requested with
  | none => .ok (avail, false)
  | some cols =>
    let valid := projectCols cols avail
    if valid = [] then .error "None of the requested columns exist"
    else .ok (valid, valid.length != cols.length)

/-! ## WHERE-clause text operators (src/cloudcat/cli.py apply_where_filter
lines 258-302) -/

/-- The four textual-match operators of the WHERE grammar. -/
inductive TextOp
  | containsOp | notContainsOp | startsWithOp | endsWithOp
deriving DecidableEq

/-- Stringification performed by `df[column].astype(str)`: a present value
keeps its text, a missing value is rendered as its textual form (the string
'None' for a Python None; float NaN renders as 'nan', modelled the same way
up to the concrete spelling). -/
def stringifyCell : Option (List Char) → List Char
  | none => "None".toList
  | some s => s

/-- Substring test: does `pat` occur contiguously inside `s`? -/
def containsB (pat : List Char) : List Char → Bool
  | [] => pat.isPrefixOf []
  | c :: rest => pat.isPrefixOf (c :: rest) || containsB pat rest

/-- Per-cell semantics of the four text operators in apply_where_filter lines
291-298.  pandas `.str.contains(value, case=False)` performs a
case-insensitive scan (modelled for plain, metacharacter-free patterns as
case-insensitive substring search); `.str.startswith`/`.str.endswith` accept
no case flag and compare literally; `na=False` is unreachable because
`astype(str)` has already stringified every missing value. -/
def textOpMatch (op : TextOp) (cell : Option (List Char)) (v : List Char) : Bool :=
  let s := stringifyCell cell
  match op with
  | .containsOp => containsB (lowerChars v) (lowerChars s)
  | .notContainsOp => !containsB (lowerChars v) (lowerChars s)
  | .startsWithOp => v.isPrefixOf s
  | .endsWithOp => v.isSuffixOf s

/-! ## Decoders and the bounded readers (src/cloudcat/cli.py lines 908-1071) -/

/-- The decoder row-budget contract: a positive budget decodes at most that
many rows from the front of the file, budget 0 decodes everything (cli.py
text reader lines 884-886; the same contract for every format). -/
def decodeRows {α} (rows : List α) (budget : Nat) : List α :=
  if 0 < budget then rows.take budget else rows

/-- Row budget of the single-file reader (cli.py line 1045):
`offset + num_rows` when the limit is positive, else 0 (read everything). -/
def singleReadBudget (offset : Nat) (numRows : Int) : Nat :=
  if 0 < numRows then offset + numRows.toNat else 0

/-- Embedding of the single-file `read_data` (cli.py lines 1043-1071) from the
decoded stream onward: decode once with the folded budget, then slice off the
offset locally, warning and emptying when the offset covers everything. -/
def read_data {α σ} (fileRows : List α) (schema : σ) (numRows : Int) (offset : Nat) :
    List α × σ :=
  let df := decodeRows fileRows (singleReadBudget offset numRows)
  let sliced :=
    if 0 < offset ∧ ¬ df.isEmpty then
      if df.length ≤ offset then ([] : List α) else df.drop offset
    else df
  (sliced, schema)

/-- Loop state of `read_data_from_multiple_files` (cli.py lines 908-1000).
The fields `budgets` and `offTrace` record, for verification only, the row
budget passed to each decoder invocation and the value of `remaining_offset`
at that moment; they are never read by the loop logic. -/
structure MFState (α : Type) where
  dfs : List (List α)
  schemas : List SchemaT
  budgets : List Nat
  offTrace : List Nat
  rowsRead : Nat
  rowsSkipped : Nat
  totalRows : Nat
  remOffset : Nat

/-- Per-file row budget of the multi-file loop (cli.py lines 941, 963, 967):
`remaining_to_skip + remaining_to_read` when the limit is positive — and
`remaining_rows` is initialised to `num_rows` and never decremented — else 0. -/
def mfBudget (numRows : Int) (remOffset : Nat) : Nat :=
  if 0 < numRows then remOffset + numRows.toNat else 0

/-- The file loop of `read_data_from_multiple_files` (cli.py lines 965-992):
decode each file with the computed budget, skip whole or partial decodes while
an offset remains, accumulate surviving rows and schemas, and break once the
accumulated rows reach a positive limit. -/
def mfLoop {α} (numRows : Int) : List (List α × SchemaT) → MFState α → MFState α
  | [], st => st
  | (rows, sch) :: rest, st =>
    let budget := mfBudget numRows st.remOffset
    let df := decodeRows rows budget
    let st1 : MFState α :=
      { st with budgets := st.budgets ++ [budget], offTrace := st.offTrace ++ [st.remOffset] }
    if df.isEmpty then
      mfLoop numRows rest st1
    else
      let st2 : MFState α := { st1 with totalRows := st1.totalRows + df.length }
      if 0 < st2.remOffset ∧ df.length ≤ st2.remOffset then
        mfLoop numRows rest
          { st2 with
            remOffset := st2.remOffset - df.length,
            rowsSkipped := st2.rowsSkipped + df.length,
            schemas := st2.schemas ++ [sch] }
      else
        let surviving := df.drop st2.remOffset
        let st3 : MFState α :=
          { st2 with
            rowsSkipped := st2.rowsSkipped + st2.remOffset,
            remOffset := 0,
            dfs := st2.dfs ++ [surviving],
            schemas := st2.schemas ++ [sch],
            rowsRead := st2.rowsRead + surviving.length }
        if 0 < numRows ∧ numRows.toNat ≤ st3.rowsRead then st3
        else mfLoop numRows rest st3

/-- Initial loop state: `remaining_offset = offset`, everything else empty. -/
def mfInit {α} (offset : Nat) : MFState α :=
  ⟨[], [], [], [], 0, 0, 0, offset⟩

/-- Successor state of one loop iteration whose decode came back empty: only
the verification traces change. -/
def mfEmptyState {α} (st : MFState α) (budget : Nat) : MFState α :=
  { st with budgets := st.budgets ++ [budget],
            offTrace := st.offTrace ++ [st.remOffset] }

/-- Successor state of a whole-file offset skip (cli.py lines 974-979):
`d` rows were decoded and all of them consumed by the remaining offset. -/
def mfSkipState {α} (st : MFState α) (sch : SchemaT) (budget d : Nat) : MFState α :=
  { st with budgets := st.budgets ++ [budget],
            offTrace := st.offTrace ++ [st.remOffset],
            totalRows := st.totalRows + d,
            remOffset := st.remOffset - d,
            rowsSkipped := st.rowsSkipped + d,
            schemas := st.schemas ++ [sch] }

/-- Successor state of an accumulating iteration (cli.py lines 981-991):
`d` rows were decoded, the remaining offset was consumed, and the surviving
rows `surv` were appended. -/
def mfAppendState {α} (st : MFState α) (sch : SchemaT) (budget d : Nat)
    (surv : List α) : MFState α :=
  { st with budgets := st.budgets ++ [budget],
            offTrace := st.offTrace ++ [st.remOffset],
            totalRows := st.totalRows + d,
            rowsSkipped := st.rowsSkipped + st.remOffset,
            remOffset := 0,
            dfs := st.dfs ++ [surv],
            schemas := st.schemas ++ [sch],
            rowsRead := st.rowsRead + surv.length }

/-- The loop run over a file list (each file given as its decoded row list
plus its dtype schema). -/
def mfRun {α} (files : List (List α × SchemaT)) (numRows : Int) (offset : Nat) :
    MFState α :=
  mfLoop numRows files (mfInit offset)

/-- The logical cross-file row stream: every file's rows in file order. -/
def rowsOf {α} (files : List (List α × SchemaT)) : List α :=
  (files.map Prod.fst).flatten

/-- Embedding of `read_data_from_multiple_files` (cli.py lines 908-1022): run
the loop, then assemble the result — empty-with-warning when the offset
skipped everything, an error when nothing was read at all, otherwise the
concatenated surviving rows truncated to a positive limit, together with the
merged schema and the pre-trim total row count. -/
def read_data_from_multiple_files {α} (files : List (List α × SchemaT))
    (numRows : Int) (offset : Nat) : Except String (List α × SchemaT × Nat) :=
  let st := mfRun files numRows offset
  if st.dfs.isEmpty then
    if 0 < st.rowsSkipped then .ok ([], [], st.totalRows)
    else .error "No data could be read from any of the files"
  else
    let concatenated := st.dfs.flatten
    let merged := mergeSchemas st.schemas
    let final :=
      if 0 < numRows ∧ numRows.toNat < concatenated.length then
        concatenated.take numRows.toNat
      else concatenated
    .ok (final, merged, st.totalRows)

/-! ## General list helper lemmas -/

theorem pfx_append_left {α} (s : List α) {t u : List α} (h : t <+: u) :
    s ++ t <+: s ++ u := by
  obtain ⟨r, hr⟩ := h
  exact ⟨r, by rw [List.append_assoc, hr]⟩

theorem take_pfx {α} (n : Nat) (l : List α) : l.take n <+: l :=
  ⟨l.drop n, List.take_append_drop n l⟩

theorem pfx_extend {α} {t u : List α} (v : List α) (h : t <+: u) : t <+: u ++ v := by
  obtain ⟨r, hr⟩ := h
  exact ⟨r ++ v, by rw [← List.append_assoc, hr]⟩

/-! ## C9: compression detect/strip consistency -/

theorem detect_isSome_iff (path : List Char) :
    (detect_compression path).isSome = true ↔
      ∃ ext ∈ COMPRESSION_EXTENSIONS, ext.isSuffixOf (lowerChars path) = true := by
  simp only [detect_compression, COMPRESSION_EXTENSIONS]
  split_ifs with h1 h2 h3 h4 h5 <;>
    simp_all [List.exists_mem_cons_iff, Bool.or_eq_true] <;> tauto

/-- C9: for every path, `detect_compression` returns a kind exactly when
`strip_compression_extension` changes the name; the stripped name is always a
byte-for-byte prefix of the original (original case preserved); and when a
kind is detected, stripping removes exactly one matched trailing compression
suffix, whose lowering is the matched extension. -/
theorem compressionDetectStripConsistent (path : List Char) :
    ((detect_compression path).isSome = true ↔ strip_compression_extension path ≠ path) ∧
    strip_compression_extension path <+: path ∧
    ((detect_compression path).isSome = true →
      ∃ ext ∈ COMPRESSION_EXTENSIONS,
        lowerChars (path.drop (path.length - ext.length)) = ext ∧
        strip_compression_extension path = path.take (path.length - ext.length) ∧
        strip_compression_extension path ++ path.drop (path.length - ext.length) = path) := by
  rcases hfind : COMPRESSION_EXTENSIONS.find? (fun ext => ext.isSuffixOf (lowerChars path)) with _ | ext
  · have hstrip : strip_compression_extension path = path := by
      simp [strip_compression_extension, hfind]
    have hnone : ¬ (detect_compression path).isSome = true := by
      rw [detect_isSome_iff]
      rintro ⟨e, he, hp⟩
      exact List.find?_eq_none.mp hfind e he hp
    exact ⟨⟨fun h => absurd h hnone, fun h => absurd hstrip h⟩,
      by rw [hstrip], fun h => absurd h hnone⟩
  · have hp : ext.isSuffixOf (lowerChars path) = true :=
      @List.find?_some _ (fun e => e.isSuffixOf (lowerChars path)) ext COMPRESSION_EXTENSIONS hfind
    have hmem : ext ∈ COMPRESSION_EXTENSIONS :=
      @List.mem_of_find?_eq_some _ (fun e => e.isSuffixOf (lowerChars path)) ext COMPRESSION_EXTENSIONS hfind
    have hsuf : ext <:+ lowerChars path := List.isSuffixOf_iff_suffix.mp hp
    have hlen : ext.length ≤ path.length := by
      have h := hsuf.length_le
      simpa [lowerChars] using h
    have hextpos : 0 < ext.length := by
      have hne : ∀ e ∈ COMPRESSION_EXTENSIONS, 0 < e.length := by decide
      exact hne ext hmem
    have hstrip : strip_compression_extension path = path.take (path.length - ext.length) := by
      simp [strip_compression_extension, hfind]
    have hdrop : (lowerChars path).drop (path.length - ext.length) = ext := by
      have h := List.suffix_iff_eq_drop.mp hsuf
      have hlenmap : (lowerChars path).length = path.length := by
        simp [lowerChars]
      rw [hlenmap] at h
      exact h.symm
    have hlow : lowerChars (path.drop (path.length - ext.length)) = ext := by
      rw [lowerChars, List.map_drop]
      exact hdrop
    have hneq : strip_compression_extension path ≠ path := by
      rw [hstrip]
      intro hEq
      have hlenEq : (path.take (path.length - ext.length)).length = path.length := by rw [hEq]
      rw [List.length_take] at hlenEq
      omega
    have hisSome : (detect_compression path).isSome = true := by
      rw [detect_isSome_iff]
      exact ⟨ext, hmem, hp⟩
    refine ⟨⟨fun _ => hneq, fun _ => hisSome⟩, ?_, fun _ => ⟨ext, hmem, hlow, hstrip, ?_⟩⟩
    · rw [hstrip]
      exact take_pfx _ _
    · rw [hstrip]
      exact List.take_append_drop _ _

theorem compressionDetectStripConsistent_witness :
    ∃ ext ∈ COMPRESSION_EXTENSIONS,
      lowerChars ("part-0001.csv.GZ".toList.drop ("part-0001.csv.GZ".toList.length - ext.length)) = ext ∧
      strip_compression_extension "part-0001.csv.GZ".toList =
        "part-0001.csv.GZ".toList.take ("part-0001.csv.GZ".toList.length - ext.length) ∧
      strip_compression_extension "part-0001.csv.GZ".toList ++
          "part-0001.csv.GZ".toList.drop ("part-0001.csv.GZ".toList.length - ext.length) =
        "part-0001.csv.GZ".toList :=
  (compressionDetectStripConsistent "part-0001.csv.GZ".toList).2.2 (by decide)

/-! ## C6: size-bounded selection -/

theorem sumSizes_nil : sumSizes [] = 0 := rfl

theorem sumSizes_cons (f : FileEntry) (l : List FileEntry) :
    sumSizes (f :: l) = f.2 + sumSizes l := by
  simp [sumSizes]

theorem sumSizes_append (a b : List FileEntry) :
    sumSizes (a ++ b) = sumSizes a + sumSizes b := by
  simp [sumSizes]

theorem sumSizes_take_le (l : List FileEntry) {i j : Nat} (h : i ≤ j) :
    sumSizes (l.take i) ≤ sumSizes (l.take j) := by
  conv_rhs => rw [← List.take_append_drop i (l.take j)]
  rw [sumSizes_append, List.take_take, Nat.min_eq_left h]
  exact Nat.le_add_right _ _

theorem selectLoop_spec (maxBytes : Nat) (files : List FileEntry) :
    ∀ total : Nat,
      (files ≠ [] → selectLoop maxBytes files total ≠ []) ∧
      selectLoop maxBytes files total <+: files ∧
      ((maxBytes ≤ total + sumSizes (selectLoop maxBytes files total) ∧
          ∀ j, 0 < j → j < (selectLoop maxBytes files total).length →
            total + sumSizes ((selectLoop maxBytes files total).take j) < maxBytes) ∨
        (selectLoop maxBytes files total = files ∧ total + sumSizes files < maxBytes)) := by
  induction files with
  | nil =>
    intro total
    refine ⟨fun h => absurd rfl h, ⟨[], rfl⟩, ?_⟩
    rcases Nat.lt_or_ge total maxBytes with h | h
    · exact Or.inr ⟨rfl, by simpa [sumSizes] using h⟩
    · refine Or.inl ⟨by simpa [selectLoop, sumSizes] using h, ?_⟩
      intro j _ hlt
      simp [selectLoop] at hlt
  | cons f rest ih =>
    intro total
    by_cases hb : maxBytes ≤ total + f.2
    · have hsel : selectLoop maxBytes (f :: rest) total = [f] := by
        simp [selectLoop, hb]
      rw [hsel]
      refine ⟨fun _ => by simp, ⟨rest, rfl⟩, Or.inl ⟨?_, ?_⟩⟩
      · rw [sumSizes_cons, sumSizes_nil]
        omega
      · intro j hj hlt
        simp at hlt
        omega
    · have hsel : selectLoop maxBytes (f :: rest) total =
          f :: selectLoop maxBytes rest (total + f.2) := by
        simp [selectLoop, hb]
      obtain ⟨_, ihpfx, ihdisj⟩ := ih (total + f.2)
      rw [hsel]
      refine ⟨fun _ => by simp, pfx_append_left [f] ihpfx, ?_⟩
      rcases ihdisj with ⟨hge, hforall⟩ | ⟨hEq, hsum⟩
      · refine Or.inl ⟨by rw [sumSizes_cons]; omega, ?_⟩
        intro j hj hlt
        cases j with
        | zero => omega
        | succ jj =>
          rw [List.take_succ_cons, sumSizes_cons]
          rcases Nat.eq_zero_or_pos jj with hz | hp
          · subst hz
            simp only [List.take_zero, sumSizes_nil]
            omega
          · have hlen : jj < (selectLoop maxBytes rest (total + f.2)).length := by
              simp only [List.length_cons] at hlt
              omega
            have h4 := hforall jj hp hlen
            omega
      · refine Or.inr ⟨by rw [hEq], by rw [sumSizes_cons]; omega⟩

/-- C6: over any non-empty candidate list, size-bounded selection always picks
at least one file, picks a prefix of the list (files in order), keeps the
running total of the files before every selected file except the last strictly
below the threshold, and stops immediately after the first file whose
inclusion reaches the threshold (or selects everything when the total stays
below it). -/
theorem sizeBoundedSelection (files : List FileEntry) (maxBytes : Nat)
    (hne : files ≠ []) :
    selectLoop maxBytes files 0 ≠ [] ∧
    selectLoop maxBytes files 0 <+: files ∧
    (∀ i, i + 1 < (selectLoop maxBytes files 0).length →
      sumSizes ((selectLoop maxBytes files 0).take i) < maxBytes) ∧
    ((maxBytes ≤ sumSizes (selectLoop maxBytes files 0) ∧
        ∀ j, 0 < j → j < (selectLoop maxBytes files 0).length →
          sumSizes ((selectLoop maxBytes files 0).take j) < maxBytes) ∨
      (selectLoop maxBytes files 0 = files ∧ sumSizes files < maxBytes)) := by
  obtain ⟨h1, h2, h3⟩ := selectLoop_spec maxBytes files 0
  simp only [Nat.zero_add] at h3
  refine ⟨h1 hne, h2, ?_, h3⟩
  intro i hi
  rcases h3 with ⟨_, hforall⟩ | ⟨hEq, hsum⟩
  · rcases Nat.eq_zero_or_pos i with hz | hp
    · subst hz
      have h4 := hforall 1 Nat.one_pos (by omega)
      simp only [List.take_zero, sumSizes_nil]
      exact lt_of_le_of_lt (Nat.zero_le _) h4
    · have h4 := hforall (i + 1) (by omega) hi
      exact lt_of_le_of_lt (sumSizes_take_le _ (Nat.le_succ i)) h4
  · have hlen : i ≤ files.length := by
      rw [hEq] at hi
      omega
    have h4 : sumSizes ((selectLoop maxBytes files 0).take i) ≤ sumSizes files := by
      rw [hEq]
      conv_rhs => rw [← List.take_length files]
      exact sumSizes_take_le files hlen
    exact lt_of_le_of_lt h4 hsum

theorem sizeBoundedSelection_witness :
    selectLoop 150 [("a.csv", 100), ("b.csv", 200), ("c.csv", 50)] 0 ≠ [] ∧
    selectLoop 150 [("a.csv", 100), ("b.csv", 200), ("c.csv", 50)] 0 <+:
      [("a.csv", 100), ("b.csv", 200), ("c.csv", 50)] :=
  ⟨(sizeBoundedSelection [("a.csv", 100), ("b.csv", 200), ("c.csv", 50)] 150 (by decide)).1,
   (sizeBoundedSelection [("a.csv", 100), ("b.csv", 200), ("c.csv", 50)] 150 (by decide)).2.1⟩

/-! ## C7: fallback law of file selection -/

theorem nonEmptyFiles_ne_nil {files : List FileEntry}
    (h : ∃ f ∈ files, 0 < f.2) : nonEmptyFiles files ≠ [] := by
  obtain ⟨f, hf, hpos⟩ := h
  intro hcon
  have hmem : f ∈ nonEmptyFiles files :=
    List.mem_filter.mpr ⟨hf, by simpa using hpos⟩
  simp [hcon] at hmem

theorem applyMetadataSkip_ne_nil {files : List FileEntry} (h : files ≠ []) :
    applyMetadataSkip files ≠ [] := by
  simp only [applyMetadataSkip]
  split
  · exact h
  · next hc =>
    intro he
    exact hc (by simp [he])

theorem applyFormatFilter_ne_nil {files : List FileEntry} (fmt : Option Fmt)
    (h : files ≠ []) : applyFormatFilter files fmt ≠ [] := by
  match fmt with
  | none => exact h
  | some φ =>
    simp only [applyFormatFilter]
    split
    · exact h
    · next hc =>
      intro he
      exact hc (by simp [he])

theorem length_insertFile (f : FileEntry) (l : List FileEntry) :
    (insertFile f l).length = l.length + 1 := by
  induction l with
  | nil => rfl
  | cons g rest ih =>
    simp only [insertFile]
    split
    · simp
    · simp [ih]

theorem length_sortFilesByName (l : List FileEntry) :
    (sortFilesByName l).length = l.length := by
  induction l with
  | nil => rfl
  | cons f rest ih =>
    simp only [sortFilesByName, List.foldr_cons] at ih ⊢
    rw [length_insertFile, ih, List.length_cons]

theorem sortFilesByName_ne_nil {l : List FileEntry} (h : l ≠ []) :
    sortFilesByName l ≠ [] := by
  intro he
  have hlen := length_sortFilesByName l
  rw [he] at hlen
  exact h (List.length_eq_zero.mp hlen.symm)

/-- C7: for every raw listing with at least one entry of positive size, the
metadata skip falls back to the pre-skip set when it would empty the
candidates, the format filter falls back to the pre-filter set when it would
empty them, and the full selection returns a non-empty file list. -/
theorem fileSelectionFallback (files : List FileEntry) (fmt : Option Fmt)
    (maxBytes : Nat) (h : ∃ f ∈ files, 0 < f.2) :
    (nonMetadataFiles (nonEmptyFiles files) = [] →
      applyMetadataSkip (nonEmptyFiles files) = nonEmptyFiles files) ∧
    (∀ φ, fmt = some φ →
      (applyMetadataSkip (nonEmptyFiles files)).filter (fun e => matchesFormat φ e.1) = [] →
      applyFormatFilter (applyMetadataSkip (nonEmptyFiles files)) fmt =
        applyMetadataSkip (nonEmptyFiles files)) ∧
    (∃ sel, get_files_for_multiread files fmt maxBytes = .ok sel ∧ sel ≠ []) := by
  have hne : nonEmptyFiles files ≠ [] := nonEmptyFiles_ne_nil h
  have hfilesne : files ≠ [] := by
    obtain ⟨f, hf, _⟩ := h
    exact List.ne_nil_of_mem hf
  refine ⟨?_, ?_, ?_⟩
  · intro hskip
    simp [applyMetadataSkip, hskip]
  · intro φ hfmt hempty
    subst hfmt
    simp [applyFormatFilter, hempty]
  · have hskipne := applyMetadataSkip_ne_nil hne
    have hfiltne := applyFormatFilter_ne_nil fmt hskipne
    have hsortne := sortFilesByName_ne_nil hfiltne
    have hselne := (selectLoop_spec maxBytes
      (sortFilesByName (applyFormatFilter (applyMetadataSkip (nonEmptyFiles files)) fmt)) 0).1 hsortne
    refine ⟨selectLoop maxBytes
      (sortFilesByName (applyFormatFilter (applyMetadataSkip (nonEmptyFiles files)) fmt)) 0, ?_, hselne⟩
    simp only [get_files_for_multiread]
    rw [if_neg (by simpa using hfilesne), if_neg (by simpa using hne),
      if_neg (by simpa using hselne)]

theorem fileSelectionFallback_witness :
    ∃ sel, get_files_for_multiread [("run_SUCCESS", 7)] none 1000 = .ok sel ∧ sel ≠ [] :=
  (fileSelectionFallback [("run_SUCCESS", 7)] none 1000 (by decide)).2.2

/-! ## C5: schema merge -/

theorem lookupCol_setColumnType_same (acc : SchemaT) (c d : String) :
    lookupCol (setColumnType acc c d) c = mergeCell (lookupCol acc c) d := by
  induction acc with
  | nil => simp [setColumnType, lookupCol, mergeCell]
  | cons p rest ih =>
    obtain ⟨c0, d0⟩ := p
    by_cases hc : (c0 == c) = true
    · simp [setColumnType, lookupCol, hc, mergeCell]
    · simp only [setColumnType, hc, Bool.false_eq_true, if_false, lookupCol]
      exact ih

theorem lookupCol_setColumnType_other (acc : SchemaT) {c c' : String} (d : String)
    (h : c' ≠ c) : lookupCol (setColumnType acc c d) c' = lookupCol acc c' := by
  induction acc with
  | nil =>
    simp only [setColumnType, lookupCol]
    rw [if_neg (by simp [Ne.symm h])]
  | cons p rest ih =>
    obtain ⟨c0, d0⟩ := p
    by_cases hc : (c0 == c) = true
    · have hc0 : c0 = c := by simpa using hc
      simp only [setColumnType, hc, if_true, lookupCol]
      rw [if_neg (by simp [hc0, Ne.symm h]), if_neg (by simp [hc0, Ne.symm h])]
    · simp only [setColumnType, hc, Bool.false_eq_true, if_false, lookupCol]
      by_cases hc' : (c0 == c') = true
      · rw [if_pos hc', if_pos hc']
      · rw [if_neg hc', if_neg hc']
        exact ih

theorem lookupCol_foldl_pairs (pairs : List (String × String)) :
    ∀ (acc : SchemaT) (c : String),
      lookupCol (pairs.foldl (fun a cd => setColumnType a cd.1 cd.2) acc) c =
        ((pairs.filter (fun p => p.1 == c)).map (fun p => p.2)).foldl mergeCell
          (lookupCol acc c) := by
  induction pairs with
  | nil => intro acc c; rfl
  | cons cd rest ih =>
    intro acc c
    obtain ⟨c1, d1⟩ := cd
    simp only [List.foldl_cons]
    rw [ih]
    by_cases hc : (c1 == c) = true
    · simp only [List.filter_cons, hc, if_true, List.map_cons, List.foldl_cons]
      have hc1 : c1 = c := by simpa using hc
      rw [hc1, lookupCol_setColumnType_same]
    · simp only [List.filter_cons, hc, Bool.false_eq_true, if_false]
      have hne : c ≠ c1 := by
        intro hEq
        exact hc (by simp [hEq])
      rw [lookupCol_setColumnType_other _ _ hne]

theorem mergeSchemas_eq_foldl_flatten (ss : List SchemaT) :
    mergeSchemas ss = ss.flatten.foldl (fun a cd => setColumnType a cd.1 cd.2) [] := by
  rw [mergeSchemas, List.foldl_flatten]

theorem foldl_mergeCell_object (ds : List String) :
    ds.foldl mergeCell (some "object") = some "object" := by
  induction ds with
  | nil => rfl
  | cons d rest ih =>
    simp only [List.foldl_cons, mergeCell, ite_self]
    exact ih

theorem foldl_mergeCell_some (ds : List String) :
    ∀ d : String, ds.foldl mergeCell (some d) =
      some (if ds.all (fun x => x == d) then d else "object") := by
  induction ds with
  | nil => intro d; simp
  | cons x xs ih =>
    intro d
    by_cases hx : (x == d) = true
    · have hxd : x = d := by simpa using hx
      simp only [List.foldl_cons, mergeCell, List.all_cons, hx, Bool.true_and]
      rw [if_pos (by simp [hxd]), ih]
    · have hdx : (d == x) = false := by
        simp only [beq_eq_false_iff_ne]
        intro hEq
        exact hx (by simp [hEq])
      simp only [List.foldl_cons, mergeCell, hdx, Bool.false_eq_true, if_false,
        List.all_cons, hx, Bool.false_and, foldl_mergeCell_object]

theorem mergedType_foldl (ds : List String) :
    ds.foldl mergeCell none = mergedType ds := by
  cases ds with
  | nil => rfl
  | cons d rest =>
    simp only [List.foldl_cons, mergeCell, mergedType]
    exact foldl_mergeCell_some rest d

theorem lookupCol_mergeSchemas (ss : List SchemaT) (c : String) :
    lookupCol (mergeSchemas ss) c = mergedType (columnTypes c ss) := by
  rw [mergeSchemas_eq_foldl_flatten, lookupCol_foldl_pairs, columnTypes]
  exact mergedType_foldl _

theorem mergedType_perm {ds₁ ds₂ : List String} (h : ds₁.Perm ds₂) :
    mergedType ds₁ = mergedType ds₂ := by
  cases hd₁ : ds₁ with
  | nil =>
    rw [hd₁] at h
    rw [h.nil_eq]
  | cons d rest =>
    rw [hd₁] at h
    cases hd₂ : ds₂ with
    | nil =>
      rw [hd₂] at h
      exact absurd h.symm.nil_eq (by simp)
    | cons e rest₂ =>
      rw [hd₂] at h
      simp only [mergedType]
      by_cases hall : (rest.all (fun x => x == d)) = true
      · have hall₁ : ∀ x ∈ d :: rest, x = d := by
          intro x hx
          rcases List.mem_cons.mp hx with hx | hx
          · exact hx
          · simpa using List.all_eq_true.mp hall x hx
        have hed : e = d := hall₁ e (h.mem_iff.mpr (List.mem_cons_self e rest₂))
        have hall₂ : (rest₂.all (fun x => x == e)) = true := by
          rw [List.all_eq_true]
          intro x hx
          have : x = d := hall₁ x (h.mem_iff.mpr (List.mem_cons_of_mem e hx))
          simp [this, hed]
        rw [if_pos hall, if_pos hall₂, hed]
      · have hall₂ : ¬ (rest₂.all (fun x => x == e)) = true := by
          intro hall₂
          have hall₂' : ∀ x ∈ e :: rest₂, x = e := by
            intro x hx
            rcases List.mem_cons.mp hx with hx | hx
            · exact hx
            · simpa using List.all_eq_true.mp hall₂ x hx
          have hde : d = e := hall₂' d (h.mem_iff.mp (List.mem_cons_self d rest))
          apply hall
          rw [List.all_eq_true]
          intro x hx
          have : x = e := hall₂' x (h.mem_iff.mp (List.mem_cons_of_mem d hx))
          simp [this, hde]
        rw [if_neg hall, if_neg hall₂]

theorem columnTypes_cons (c : String) (s : SchemaT) (ss : List SchemaT) :
    columnTypes c (s :: ss) =
      (s.filter (fun p => p.1 == c)).map (fun p => p.2) ++ columnTypes c ss := by
  simp [columnTypes, List.flatten_cons, List.filter_append, List.map_append]

theorem mergedType_dup (ts rest : List String) :
    mergedType (ts ++ (ts ++ rest)) = mergedType (ts ++ rest) := by
  cases ts with
  | nil => rfl
  | cons t ts' =>
    simp only [List.cons_append, mergedType]
    congr 1
    cases h1 : ts'.all (fun x => x == t) <;>
      cases h2 : rest.all (fun x => x == t) <;>
        simp [List.all_append, List.all_cons, h1, h2]

/-- C5: schema merge is commutative and idempotent as a column-to-type
mapping: permuting the merged schema list (or duplicating a schema in it)
leaves every column's merged type unchanged, a column whose type agrees across
all inputs keeps that type, and a column with any type disagreement maps to
the generic 'object' marker. -/
theorem schemaMergeCommutativeIdempotent :
    (∀ (ss₁ ss₂ : List SchemaT), ss₁.Perm ss₂ →
      ∀ c, lookupCol (mergeSchemas ss₁) c = lookupCol (mergeSchemas ss₂) c) ∧
    (∀ (s : SchemaT) (ss : List SchemaT) (c : String),
      lookupCol (mergeSchemas (s :: s :: ss)) c = lookupCol (mergeSchemas (s :: ss)) c) ∧
    (∀ (ss : List SchemaT) (c d : String),
      columnTypes c ss ≠ [] → (∀ d' ∈ columnTypes c ss, d' = d) →
      lookupCol (mergeSchemas ss) c = some d) ∧
    (∀ (ss : List SchemaT) (c d₁ d₂ : String),
      d₁ ∈ columnTypes c ss → d₂ ∈ columnTypes c ss → d₁ ≠ d₂ →
      lookupCol (mergeSchemas ss) c = some "object") := by
  refine ⟨?_, ?_, ?_, ?_⟩
  · intro ss₁ ss₂ hperm c
    rw [lookupCol_mergeSchemas, lookupCol_mergeSchemas]
    exact mergedType_perm ((hperm.flatten.filter _).map _)
  · intro s ss c
    rw [lookupCol_mergeSchemas, lookupCol_mergeSchemas]
    simp only [columnTypes_cons]
    exact mergedType_dup _ _
  · intro ss c d hne hall
    rw [lookupCol_mergeSchemas]
    cases hct : columnTypes c ss with
    | nil => exact absurd hct hne
    | cons d0 rest =>
      rw [hct] at hall
      have hd0 : d0 = d := hall d0 (List.mem_cons_self d0 rest)
      simp only [mergedType]
      rw [if_pos, hd0]
      rw [List.all_eq_true]
      intro x hx
      have : x = d := hall x (List.mem_cons_of_mem d0 hx)
      simp [this, hd0]
  · intro ss c d₁ d₂ h₁ h₂ hne
    rw [lookupCol_mergeSchemas]
    cases hct : columnTypes c ss with
    | nil => rw [hct] at h₁; exact absurd h₁ (by simp)
    | cons d0 rest =>
      rw [hct] at h₁ h₂
      simp only [mergedType]
      rw [if_neg]
      intro hall
      have hall' : ∀ x ∈ d0 :: rest, x = d0 := by
        intro x hx
        rcases List.mem_cons.mp hx with hx | hx
        · exact hx
        · simpa using List.all_eq_true.mp hall x hx
      exact hne ((hall' d₁ h₁).trans (hall' d₂ h₂).symm)

theorem schemaMergeCommutativeIdempotent_witness :
    lookupCol (mergeSchemas [[("a", "int64")], [("a", "float64")]]) "a" = some "object" :=
  schemaMergeCommutativeIdempotent.2.2.2 [[("a", "int64")], [("a", "float64")]]
    "a" "int64" "float64" (by decide) (by decide) (by decide)

/-! ## C2: WHERE-clause text operators -/

theorem isPrefixOf_iff_exists (pat s : List Char) :
    pat.isPrefixOf s = true ↔ ∃ post, s = pat ++ post := by
  rw [ List.isPrefixOf_iff_prefix]
  constructor
  · rintro ⟨t, ht⟩
    exact ⟨t, ht.symm⟩
  · rintro ⟨t, ht⟩
    exact ⟨t, ht.symm⟩

theorem isSuffixOf_iff_exists (pat s : List Char) :
    pat.isSuffixOf s = true ↔ ∃ pre, s = pre ++ pat := by
  rw [List.isSuffixOf_iff_suffix]
  constructor
  · rintro ⟨t, ht⟩
    exact ⟨t, ht.symm⟩
  · rintro ⟨t, ht⟩
    exact ⟨t, ht.symm⟩

theorem containsB_iff (pat : List Char) :
    ∀ s : List Char, containsB pat s = true ↔ ∃ pre post, s = pre ++ pat ++ post := by
  intro s
  induction s with
  | nil =>
    simp only [containsB]
    rw [isPrefixOf_iff_exists]
    constructor
    · rintro ⟨post, hpost⟩
      exact ⟨[], post, by simpa using hpost⟩
    · rintro ⟨pre, post, hEq⟩
      obtain ⟨hpre, hpat, hpost⟩ : pre = [] ∧ pat = [] ∧ post = [] := by
        simpa using hEq.symm
      exact ⟨[], by simp [hpat]⟩
  | cons ch rest ih =>
    simp only [containsB, Bool.or_eq_true]
    constructor
    · rintro (h | h)
      · obtain ⟨post, hpost⟩ := (isPrefixOf_iff_exists _ _).mp h
        exact ⟨[], post, by simpa using hpost⟩
      · obtain ⟨pre, post, hEq⟩ := ih.mp h
        exact ⟨ch :: pre, post, by simp [hEq]⟩
    · rintro ⟨pre, post, hEq⟩
      cases pre with
      | nil =>
        exact Or.inl ((isPrefixOf_iff_exists _ _).mpr ⟨post, by simpa using hEq⟩)
      | cons p ps =>
        refine Or.inr (ih.mpr ⟨ps, post, ?_⟩)
        simp only [List.cons_append] at hEq
        injection hEq with _ h2

/-- C2 (amended): each text operator stringifies the cell first and never
errors; `contains`/`not contains` match case-insensitively (substring of the
lowered text), while `startswith`/`endswith` compare literally
(case-sensitively); a missing value is stringified to its textual form and
participates in matching like any other string. -/
theorem whereTextOperatorSemantics (cell : Option (List Char)) (v : List Char) :
    (textOpMatch .containsOp cell v = true ↔
      ∃ pre post, lowerChars (stringifyCell cell) = pre ++ lowerChars v ++ post) ∧
    (textOpMatch .notContainsOp cell v = !textOpMatch .containsOp cell v) ∧
    (textOpMatch .startsWithOp cell v = true ↔ ∃ post, stringifyCell cell = v ++ post) ∧
    (textOpMatch .endsWithOp cell v = true ↔ ∃ pre, stringifyCell cell = pre ++ v) ∧
    (∀ op, textOpMatch op none v = textOpMatch op (some "None".toList) v) := by
  refine ⟨?_, rfl, ?_, ?_, fun op => rfl⟩
  · exact containsB_iff (lowerChars v) (lowerChars (stringifyCell cell))
  · exact isPrefixOf_iff_exists v (stringifyCell cell)
  · exact isSuffixOf_iff_exists v (stringifyCell cell)

theorem whereTextOperatorSemantics_witness :
    ∃ pre post,
      lowerChars (stringifyCell (some "xAbCy".toList)) =
        pre ++ lowerChars "abc".toList ++ post :=
  (whereTextOperatorSemantics (some "xAbCy".toList) "abc".toList).1.mp (by decide)

theorem whereTextCase_counterexample :
    textOpMatch .startsWithOp (some "Alice".toList) "a".toList = false ∧
    textOpMatch .containsOp none "one".toList = true := by decide

/-! ## C3: column projection -/

theorem length_filter_eq_iff (p : String → Bool) (l : List String) :
    (l.filter p).length = l.length ↔ ∀ c ∈ l, p c = true := by
  constructor
  · intro h
    exact List.filter_eq_self.mp ((List.filter_sublist l).eq_of_length h)
  · intro h
    rw [List.filter_eq_self.mpr h]

/-- C3 (amended): in the cited decoders the projection never fails: unknown
requested names are dropped from the projection and flagged as a warning; a
request naming only absent columns yields a zero-column projection and still
succeeds.  Only the refactored readers-package CSV projection fails, exactly
when no requested column exists. -/
theorem columnProjectionDropsSilently (avail cols : List String)
    (lines : List String) (numRows : Int) :
    read_csv_data avail (some cols) = .ok (cliProjection (some cols) avail) ∧
    read_text_data lines numRows (some cols) =
      .ok ((if 0 < numRows then lines.take numRows.toNat else lines).length,
        cliProjection (some cols) ["line", "line_number"]) ∧
    (cliProjection (some cols) avail).1 = cols.filter (fun c => avail.contains c) ∧
    ((cliProjection (some cols) avail).2 = true ↔ ∃ c ∈ cols, c ∉ avail) ∧
    ((∃ e, readers_csv_projection avail (some cols) = .error e) ↔
      cols.filter (fun c => avail.contains c) = []) := by
  refine ⟨rfl, rfl, rfl, ?_, ?_⟩
  · simp only [cliProjection, projectCols]
    rw [bne_iff_ne]
    constructor
    · intro hne
      by_contra hnex
      push_neg at hnex
      apply hne
      apply (length_filter_eq_iff _ _).mpr
      intro c hc
      exact List.elem_iff.mpr (hnex c hc)
    · rintro ⟨c, hc, hnc⟩ hlen
      have hall := (length_filter_eq_iff _ _).mp hlen c hc
      exact hnc (List.elem_iff.mp hall)
  · constructor
    · rintro ⟨e, he⟩
      simp only [readers_csv_projection] at he
      by_cases hv : projectCols cols avail = []
      · exact hv
      · rw [if_neg hv] at he
        exact Except.noConfusion he
    · intro hv
      refine ⟨"None of the requested columns exist", ?_⟩
      simp only [readers_csv_projection, projectCols]
      rw [if_pos hv]

theorem columnProjectionDropsSilently_witness :
    (cliProjection (some ["x", "a"]) ["a"]).2 = true :=
  ((columnProjectionDropsSilently ["a"] ["x", "a"] [] 0).2.2.2.1).mpr
    ⟨"x", by decide, by decide⟩

theorem columnProjection_counterexample :
    read_csv_data ["a", "b"] (some ["c"]) = .ok ([], true) ∧
    read_text_data ["hello"] 0 (some ["c"]) = .ok (1, ([], true)) := by decide

/-! ## Multi-file loop: unfolding equation and monotonicity -/

theorem mfLoop_nil {α} (numRows : Int) (st : MFState α) :
    mfLoop numRows [] st = st := rfl

theorem mfLoop_cons {α} (numRows : Int) (rows : List α) (sch : SchemaT)
    (rest : List (List α × SchemaT)) (st : MFState α) :
    mfLoop numRows ((rows, sch) :: rest) st =
      (if (decodeRows rows (mfBudget numRows st.remOffset)).isEmpty then
        mfLoop numRows rest (mfEmptyState st (mfBudget numRows st.remOffset))
      else if 0 < st.remOffset ∧
          (decodeRows rows (mfBudget numRows st.remOffset)).length ≤ st.remOffset then
        mfLoop numRows rest (mfSkipState st sch (mfBudget numRows st.remOffset)
          (decodeRows rows (mfBudget numRows st.remOffset)).length)
      else if 0 < numRows ∧ numRows.toNat ≤ st.rowsRead +
          ((decodeRows rows (mfBudget numRows st.remOffset)).drop st.remOffset).length then
        mfAppendState st sch (mfBudget numRows st.remOffset)
          (decodeRows rows (mfBudget numRows st.remOffset)).length
          ((decodeRows rows (mfBudget numRows st.remOffset)).drop st.remOffset)
      else
        mfLoop numRows rest (mfAppendState st sch (mfBudget numRows st.remOffset)
          (decodeRows rows (mfBudget numRows st.remOffset)).length
          ((decodeRows rows (mfBudget numRows st.remOffset)).drop st.remOffset))) := rfl

theorem decodeRows_ne_nil {α} {rows : List α} (h : rows ≠ []) (budget : Nat) :
    ¬ (decodeRows rows budget).isEmpty = true := by
  intro hcon
  rw [List.isEmpty_iff] at hcon
  revert hcon
  simp only [decodeRows]
  split_ifs with hb
  · rw [List.take_eq_nil_iff]
    rintro (h0 | h0)
    · omega
    · exact h h0
  · exact h

theorem mfLoop_dfs_mono {α} (numRows : Int) (fs : List (List α × SchemaT)) :
    ∀ st : MFState α, ∃ e, (mfLoop numRows fs st).dfs = st.dfs ++ e := by
  induction fs with
  | nil =>
    intro st
    exact ⟨[], by simp [mfLoop_nil]⟩
  | cons f rest ih =>
    obtain ⟨rows, sch⟩ := f
    intro st
    rw [mfLoop_cons]
    split_ifs with h1 h2 h3
    · exact ih (mfEmptyState st (mfBudget numRows st.remOffset))
    · exact ih (mfSkipState st sch (mfBudget numRows st.remOffset)
        (decodeRows rows (mfBudget numRows st.remOffset)).length)
    · exact ⟨[(decodeRows rows (mfBudget numRows st.remOffset)).drop st.remOffset], rfl⟩
    · obtain ⟨e, he⟩ := ih (mfAppendState st sch (mfBudget numRows st.remOffset)
        (decodeRows rows (mfBudget numRows st.remOffset)).length
        ((decodeRows rows (mfBudget numRows st.remOffset)).drop st.remOffset))
      refine ⟨[(decodeRows rows (mfBudget numRows st.remOffset)).drop st.remOffset] ++ e, ?_⟩
      rw [he]
      simp [mfAppendState]

theorem mfLoop_skipped_mono {α} (numRows : Int) (fs : List (List α × SchemaT)) :
    ∀ st : MFState α, st.rowsSkipped ≤ (mfLoop numRows fs st).rowsSkipped := by
  induction fs with
  | nil =>
    intro st
    simp [mfLoop_nil]
  | cons f rest ih =>
    obtain ⟨rows, sch⟩ := f
    intro st
    rw [mfLoop_cons]
    split_ifs with h1 h2 h3
    · exact ih (mfEmptyState st (mfBudget numRows st.remOffset))
    · calc st.rowsSkipped
          ≤ st.rowsSkipped + (decodeRows rows (mfBudget numRows st.remOffset)).length :=
            Nat.le_add_right _ _
        _ ≤ _ := ih (mfSkipState st sch (mfBudget numRows st.remOffset)
            (decodeRows rows (mfBudget numRows st.remOffset)).length)
    · exact Nat.le_add_right _ _
    · calc st.rowsSkipped
          ≤ st.rowsSkipped + st.remOffset := Nat.le_add_right _ _
        _ ≤ _ := ih (mfAppendState st sch (mfBudget numRows st.remOffset)
            (decodeRows rows (mfBudget numRows st.remOffset)).length
            ((decodeRows rows (mfBudget numRows st.remOffset)).drop st.remOffset))

theorem mfLoop_progress {α} (numRows : Int) (fs : List (List α × SchemaT)) :
    ∀ st : MFState α, rowsOf fs ≠ [] →
      (mfLoop numRows fs st).dfs ≠ st.dfs ∨
      st.rowsSkipped < (mfLoop numRows fs st).rowsSkipped := by
  induction fs with
  | nil =>
    intro st h
    exact absurd (by simp [rowsOf]) h
  | cons f rest ih =>
    obtain ⟨rows, sch⟩ := f
    intro st hne
    rw [mfLoop_cons]
    by_cases hrows : rows = []
    · subst hrows
      have hdf : (decodeRows ([] : List α) (mfBudget numRows st.remOffset)).isEmpty = true := by
        simp [decodeRows]
      rw [if_pos hdf]
      have hne' : rowsOf rest ≠ [] := by
        simpa [rowsOf] using hne
      exact ih (mfEmptyState st (mfBudget numRows st.remOffset)) hne'
    · have hdfne := decodeRows_ne_nil hrows (mfBudget numRows st.remOffset)
      have hdpos : 0 < (decodeRows rows (mfBudget numRows st.remOffset)).length := by
        rw [List.length_pos]
        intro hc
        exact hdfne (by simp [hc])
      rw [if_neg hdfne]
      split_ifs with h2 h3
      · refine Or.inr ?_
        have hmono := mfLoop_skipped_mono numRows rest (mfSkipState st sch
          (mfBudget numRows st.remOffset)
          (decodeRows rows (mfBudget numRows st.remOffset)).length)
        have hlt : st.rowsSkipped <
            st.rowsSkipped + (decodeRows rows (mfBudget numRows st.remOffset)).length := by
          omega
        exact lt_of_lt_of_le hlt hmono
      · refine Or.inl ?_
        intro hcon
        have hlen := congrArg List.length hcon
        simp [mfAppendState] at hlen
      · refine Or.inl ?_
        obtain ⟨e, he⟩ := mfLoop_dfs_mono numRows rest (mfAppendState st sch
          (mfBudget numRows st.remOffset)
          (decodeRows rows (mfBudget numRows st.remOffset)).length
          ((decodeRows rows (mfBudget numRows st.remOffset)).drop st.remOffset))
        rw [he]
        intro hcon
        have hlen := congrArg List.length hcon
        simp [mfAppendState] at hlen

/-! ## Multi-file loop: decode characterisation and main invariants -/

theorem decodeRows_pos {α} (rows : List α) {budget : Nat} (h : 0 < budget) :
    decodeRows rows budget = rows.take budget := by
  simp [decodeRows, h]

theorem mfBudget_pos {numRows : Int} (off : Nat) (h : 0 < numRows) :
    mfBudget numRows off = off + numRows.toNat := by
  simp [mfBudget, h]

theorem mfBudget_nonpos {numRows : Int} (off : Nat) (h : numRows ≤ 0) :
    mfBudget numRows off = 0 := by
  have : ¬ 0 < numRows := by omega
  simp [mfBudget, this]

theorem rowsOf_nil {α} : rowsOf ([] : List (List α × SchemaT)) = [] := rfl

theorem rowsOf_cons {α} (rows : List α) (sch : SchemaT)
    (rest : List (List α × SchemaT)) :
    rowsOf ((rows, sch) :: rest) = rows ++ rowsOf rest := by
  simp [rowsOf]

theorem mfLoop_spec_pos {α} (numRows : Int) (hl : 0 < numRows)
    (fs : List (List α × SchemaT)) :
    ∀ st : MFState α, st.rowsRead < numRows.toNat →
      ∃ X, (mfLoop numRows fs st).dfs.flatten = st.dfs.flatten ++ X ∧
        X <+: (rowsOf fs).drop st.remOffset ∧
        min (numRows.toNat - st.rowsRead) ((rowsOf fs).drop st.remOffset).length ≤
          X.length := by
  induction fs with
  | nil =>
    intro st _
    refine ⟨[], by simp [mfLoop_nil], List.nil_prefix, ?_⟩
    simp [rowsOf_nil]
  | cons f rest ih =>
    obtain ⟨rows, sch⟩ := f
    intro st hn
    have hL : 0 < numRows.toNat := by omega
    have hbudget : mfBudget numRows st.remOffset = st.remOffset + numRows.toNat :=
      mfBudget_pos st.remOffset hl
    have hdf : decodeRows rows (mfBudget numRows st.remOffset) =
        rows.take (st.remOffset + numRows.toNat) := by
      rw [hbudget]
      exact decodeRows_pos rows (by omega)
    have hd : (decodeRows rows (mfBudget numRows st.remOffset)).length =
        min (st.remOffset + numRows.toNat) rows.length := by
      rw [hdf, List.length_take]
    rw [mfLoop_cons]
    by_cases hrows : rows = []
    · subst hrows
      have hempty : (decodeRows ([] : List α) (mfBudget numRows st.remOffset)).isEmpty = true := by
        simp [decodeRows]
      rw [if_pos hempty]
      obtain ⟨X, hX1, hX2, hX3⟩ := ih (mfEmptyState st (mfBudget numRows st.remOffset)) hn
      refine ⟨X, hX1, ?_, ?_⟩
      · simpa [rowsOf_cons, mfEmptyState] using hX2
      · simpa [rowsOf_cons, mfEmptyState] using hX3
    · have hdfne := decodeRows_ne_nil hrows (mfBudget numRows st.remOffset)
      have hdpos : 0 < (decodeRows rows (mfBudget numRows st.remOffset)).length := by
        rw [List.length_pos]
        intro hc
        exact hdfne (by simp [hc])
      rw [if_neg hdfne]
      by_cases hskip : 0 < st.remOffset ∧
          (decodeRows rows (mfBudget numRows st.remOffset)).length ≤ st.remOffset
      · rw [if_pos hskip]
        have hdrl : (decodeRows rows (mfBudget numRows st.remOffset)).length = rows.length := by
          have hle := hskip.2
          rw [hd] at hle ⊢
          omega
        have hrle : rows.length ≤ st.remOffset := by
          have hle := hskip.2
          rw [hdrl] at hle
          exact hle
        obtain ⟨X, hX1, hX2, hX3⟩ := ih (mfSkipState st sch (mfBudget numRows st.remOffset)
          (decodeRows rows (mfBudget numRows st.remOffset)).length) hn
        have hstream : (rowsOf ((rows, sch) :: rest)).drop st.remOffset =
            (rowsOf rest).drop (st.remOffset - rows.length) := by
          rw [rowsOf_cons]
          have hsplit : st.remOffset = rows.length + (st.remOffset - rows.length) := by
            omega
          conv_lhs => rw [hsplit]
          rw [List.drop_append]
        refine ⟨X, hX1, ?_, ?_⟩
        · rw [hstream]
          simpa [mfSkipState, hdrl] using hX2
        · rw [hstream]
          simpa [mfSkipState, hdrl] using hX3
      · rw [if_neg hskip]
        have hoffd : st.remOffset < (decodeRows rows (mfBudget numRows st.remOffset)).length := by
          by_cases hoff : 0 < st.remOffset
          · rcases Nat.lt_or_ge st.remOffset (decodeRows rows (mfBudget numRows st.remOffset)).length
              with h | h
            · exact h
            · exact absurd ⟨hoff, h⟩ hskip
          · omega
        have hoffrows : st.remOffset < rows.length := by
          have hle : (decodeRows rows (mfBudget numRows st.remOffset)).length ≤ rows.length := by
            rw [hd]
            omega
          omega
        have hsurv : (decodeRows rows (mfBudget numRows st.remOffset)).drop st.remOffset =
            (rows.drop st.remOffset).take numRows.toNat := by
          rw [hdf, List.drop_take]
          congr 1
          omega
        have hsurvlen : ((decodeRows rows (mfBudget numRows st.remOffset)).drop st.remOffset).length =
            (decodeRows rows (mfBudget numRows st.remOffset)).length - st.remOffset :=
          List.length_drop _ _
        by_cases hbreak : 0 < numRows ∧ numRows.toNat ≤ st.rowsRead +
            ((decodeRows rows (mfBudget numRows st.remOffset)).drop st.remOffset).length
        · rw [if_pos hbreak]
          refine ⟨(decodeRows rows (mfBudget numRows st.remOffset)).drop st.remOffset, ?_, ?_, ?_⟩
          · simp [mfAppendState]
          · rw [rowsOf_cons, hsurv, List.drop_append_of_le_length (le_of_lt hoffrows)]
            exact pfx_extend _ (take_pfx _ _)
          · have hge := hbreak.2
            calc min (numRows.toNat - st.rowsRead)
                  ((rowsOf ((rows, sch) :: rest)).drop st.remOffset).length
                ≤ numRows.toNat - st.rowsRead := Nat.min_le_left _ _
              _ ≤ ((decodeRows rows (mfBudget numRows st.remOffset)).drop st.remOffset).length := by
                omega
        · rw [if_neg hbreak]
          have hnobreak : st.rowsRead +
              ((decodeRows rows (mfBudget numRows st.remOffset)).drop st.remOffset).length <
              numRows.toNat := by
            rcases Nat.lt_or_ge (st.rowsRead +
              ((decodeRows rows (mfBudget numRows st.remOffset)).drop st.remOffset).length)
              numRows.toNat with h | h
            · exact h
            · exact absurd ⟨hl, h⟩ hbreak
          have hdrl : (decodeRows rows (mfBudget numRows st.remOffset)).length = rows.length := by
            rw [hsurvlen, hd] at hnobreak
            rw [hd]
            omega
          have hsurvfull : (decodeRows rows (mfBudget numRows st.remOffset)).drop st.remOffset =
              rows.drop st.remOffset := by
            rw [hdf, List.take_of_length_le]
            rw [hd] at hdrl
            omega
          obtain ⟨X₂, hX1, hX2, hX3⟩ := ih (mfAppendState st sch (mfBudget numRows st.remOffset)
            (decodeRows rows (mfBudget numRows st.remOffset)).length
            ((decodeRows rows (mfBudget numRows st.remOffset)).drop st.remOffset))
            (by exact hnobreak)
          refine ⟨rows.drop st.remOffset ++ X₂, ?_, ?_, ?_⟩
          · rw [hX1]
            simp [mfAppendState, hsurvfull, List.append_assoc]
          · rw [rowsOf_cons, List.drop_append_of_le_length (le_of_lt hoffrows)]
            apply pfx_append_left
            simpa [mfAppendState] using hX2
          · have hX3' : min (numRows.toNat -
                (st.rowsRead + (rows.drop st.remOffset).length)) (rowsOf rest).length ≤
                X₂.length := by
              simpa [mfAppendState, hsurvfull] using hX3
            rw [rowsOf_cons, List.drop_append_of_le_length (le_of_lt hoffrows),
              List.length_append, List.length_append]
            rw [List.length_drop] at hX3' ⊢
            omega

theorem mfLoop_spec_nonpos {α} (numRows : Int) (hl : numRows ≤ 0)
    (fs : List (List α × SchemaT)) :
    ∀ st : MFState α,
      (mfLoop numRows fs st).dfs.flatten =
        st.dfs.flatten ++ (rowsOf fs).drop st.remOffset := by
  induction fs with
  | nil =>
    intro st
    simp [mfLoop_nil, rowsOf_nil]
  | cons f rest ih =>
    obtain ⟨rows, sch⟩ := f
    intro st
    have hbud : mfBudget numRows st.remOffset = 0 := mfBudget_nonpos st.remOffset hl
    have hdec : decodeRows rows (mfBudget numRows st.remOffset) = rows := by
      rw [hbud]
      simp [decodeRows]
    rw [mfLoop_cons]
    by_cases hrows : rows = []
    · subst hrows
      rw [if_pos (by simp [hdec])]
      rw [ih (mfEmptyState st (mfBudget numRows st.remOffset))]
      simp [rowsOf_cons, mfEmptyState]
    · rw [if_neg (decodeRows_ne_nil hrows _)]
      by_cases hskip : 0 < st.remOffset ∧
          (decodeRows rows (mfBudget numRows st.remOffset)).length ≤ st.remOffset
      · rw [if_pos hskip]
        rw [ih (mfSkipState st sch (mfBudget numRows st.remOffset)
          (decodeRows rows (mfBudget numRows st.remOffset)).length)]
        have hrle : rows.length ≤ st.remOffset := by
          have hle := hskip.2
          rw [hdec] at hle
          exact hle
        have hstream : (rowsOf ((rows, sch) :: rest)).drop st.remOffset =
            (rowsOf rest).drop (st.remOffset - rows.length) := by
          rw [rowsOf_cons]
          have hsplit : st.remOffset = rows.length + (st.remOffset - rows.length) := by
            omega
          conv_lhs => rw [hsplit]
          rw [List.drop_append]
        rw [hstream]
        simp [mfSkipState, hdec]
      · rw [if_neg hskip]
        have hbreakfalse : ¬ (0 < numRows ∧ numRows.toNat ≤ st.rowsRead +
            ((decodeRows rows (mfBudget numRows st.remOffset)).drop st.remOffset).length) := by
          rintro ⟨h0, _⟩
          omega
        rw [if_neg hbreakfalse]
        rw [ih (mfAppendState st sch (mfBudget numRows st.remOffset)
          (decodeRows rows (mfBudget numRows st.remOffset)).length
          ((decodeRows rows (mfBudget numRows st.remOffset)).drop st.remOffset))]
        have hoffrows : st.remOffset ≤ rows.length := by
          by_cases hoff : 0 < st.remOffset
          · rcases Nat.lt_or_ge rows.length st.remOffset with h | h
            · exact absurd ⟨hoff, by rw [hdec]; omega⟩ hskip
            · exact h
          · omega
        rw [rowsOf_cons, List.drop_append_of_le_length hoffrows]
        simp [mfAppendState, hdec, List.append_assoc]

theorem mfLoop_budgets_shape {α} (numRows : Int) (hl : 0 < numRows)
    (fs : List (List α × SchemaT)) :
    ∀ st : MFState α,
      st.budgets = st.offTrace.map (fun w => w + numRows.toNat) →
      (mfLoop numRows fs st).budgets =
        (mfLoop numRows fs st).offTrace.map (fun w => w + numRows.toNat) := by
  induction fs with
  | nil =>
    intro st h
    simpa [mfLoop_nil] using h
  | cons f rest ih =>
    obtain ⟨rows, sch⟩ := f
    intro st h
    have hstep : st.budgets ++ [mfBudget numRows st.remOffset] =
        (st.offTrace ++ [st.remOffset]).map (fun w => w + numRows.toNat) := by
      rw [List.map_append, h, mfBudget_pos st.remOffset hl]
      rfl
    rw [mfLoop_cons]
    split_ifs with h1 h2 h3
    · exact ih (mfEmptyState st (mfBudget numRows st.remOffset)) hstep
    · exact ih (mfSkipState st sch (mfBudget numRows st.remOffset)
        (decodeRows rows (mfBudget numRows st.remOffset)).length) hstep
    · exact hstep
    · exact ih (mfAppendState st sch (mfBudget numRows st.remOffset)
        (decodeRows rows (mfBudget numRows st.remOffset)).length
        ((decodeRows rows (mfBudget numRows st.remOffset)).drop st.remOffset)) hstep

theorem mfLoop_budgets_zero {α} (numRows : Int) (hl : numRows ≤ 0)
    (fs : List (List α × SchemaT)) :
    ∀ st : MFState α, (∀ b ∈ st.budgets, b = 0) →
      ∀ b ∈ (mfLoop numRows fs st).budgets, b = 0 := by
  induction fs with
  | nil =>
    intro st h
    simpa [mfLoop_nil] using h
  | cons f rest ih =>
    obtain ⟨rows, sch⟩ := f
    intro st h
    have hstep : ∀ b ∈ st.budgets ++ [mfBudget numRows st.remOffset], b = 0 := by
      intro b hb
      rcases List.mem_append.mp hb with hb | hb
      · exact h b hb
      · have : b = mfBudget numRows st.remOffset := by simpa using hb
        rw [this, mfBudget_nonpos st.remOffset hl]
    rw [mfLoop_cons]
    split_ifs with h1 h2 h3
    · exact ih (mfEmptyState st (mfBudget numRows st.remOffset)) hstep
    · exact ih (mfSkipState st sch (mfBudget numRows st.remOffset)
        (decodeRows rows (mfBudget numRows st.remOffset)).length) hstep
    · exact hstep
    · exact ih (mfAppendState st sch (mfBudget numRows st.remOffset)
        (decodeRows rows (mfBudget numRows st.remOffset)).length
        ((decodeRows rows (mfBudget numRows st.remOffset)).drop st.remOffset)) hstep

/-! ## Wrapper facts shared by the reader claims -/

theorem mfRun_skipped_of_empty {α} (files : List (List α × SchemaT)) (numRows : Int)
    (offset : Nat) (hne : rowsOf files ≠ [])
    (hdfs : (mfRun files numRows offset).dfs = []) :
    0 < (mfRun files numRows offset).rowsSkipped := by
  rcases mfLoop_progress numRows files (mfInit offset) hne with h | h
  · exact absurd hdfs h
  · exact h

/-- C1 (amended): for every ordered file list in which at least one file
decodes to at least one row, every offset and every positive limit, the
multi-file reader succeeds and returns exactly the rows of the cross-file
stream after dropping `offset` and taking `limit` — so the row count is
`min(limit, total - offset)` and the rows come in file order with each file's
surviving rows in decode order.  (When every file decodes to zero rows the
reader instead fails with the no-data error, see the counterexample.) -/
theorem multiFileAccumulation {α} (files : List (List α × SchemaT)) (offset : Nat)
    (numRows : Int) (hl : 0 < numRows) (hne : rowsOf files ≠ []) :
    ∃ merged total,
      read_data_from_multiple_files files numRows offset =
        .ok (((rowsOf files).drop offset).take numRows.toNat, merged, total) ∧
      (((rowsOf files).drop offset).take numRows.toNat).length =
        min numRows.toNat ((rowsOf files).length - offset) := by
  have hinit : (mfInit offset : MFState α).rowsRead < numRows.toNat := by
    have : 0 < numRows.toNat := by omega
    exact this
  obtain ⟨X, hX1, hX2, hX3⟩ := mfLoop_spec_pos numRows hl files (mfInit offset) hinit
  have hflat : (mfRun files numRows offset).dfs.flatten = X := by
    simpa [mfRun, mfInit] using hX1
  have hX2' : X <+: (rowsOf files).drop offset := hX2
  have hX3' : min numRows.toNat ((rowsOf files).drop offset).length ≤ X.length := by
    simpa [mfInit] using hX3
  have hlenEq : (((rowsOf files).drop offset).take numRows.toNat).length =
      min numRows.toNat ((rowsOf files).length - offset) := by
    rw [List.length_take, List.length_drop]
  by_cases hdfs : (mfRun files numRows offset).dfs.isEmpty
  · have hdfsnil : (mfRun files numRows offset).dfs = [] := List.isEmpty_iff.mp hdfs
    have hXnil : X = [] := by
      rw [← hflat, hdfsnil]
      rfl
    have hRnil : (rowsOf files).drop offset = [] := by
      rw [hXnil] at hX3'
      have : ((rowsOf files).drop offset).length = 0 := by
        simp only [List.length_nil] at hX3'
        omega
      exact List.eq_nil_of_length_eq_zero this
    have hskip : 0 < (mfRun files numRows offset).rowsSkipped :=
      mfRun_skipped_of_empty files numRows offset hne hdfsnil
    refine ⟨[], (mfRun files numRows offset).totalRows, ?_, hlenEq⟩
    simp only [read_data_from_multiple_files]
    rw [if_pos hdfs, if_pos hskip, hRnil, List.take_nil]
  · have hfinal : (if 0 < numRows ∧ numRows.toNat < X.length then X.take numRows.toNat else X) =
        ((rowsOf files).drop offset).take numRows.toNat := by
      have hXtake : X = ((rowsOf files).drop offset).take X.length :=
        List.prefix_iff_eq_take.mp hX2'
      by_cases hc : 0 < numRows ∧ numRows.toNat < X.length
      · rw [if_pos hc]
        conv_lhs => rw [hXtake]
        rw [List.take_take]
        congr 1
        omega
      · rw [if_neg hc]
        have hXle : X.length ≤ numRows.toNat := by
          rcases Nat.lt_or_ge numRows.toNat X.length with h | h
          · exact absurd ⟨hl, h⟩ hc
          · exact h
        rcases Nat.le_total ((rowsOf files).drop offset).length numRows.toNat with hRL | hRL
        · have hXlenR : X.length = ((rowsOf files).drop offset).length :=
            le_antisymm hX2'.length_le (by omega)
          rw [hX2'.eq_of_length hXlenR, List.take_of_length_le hRL]
        · have hXlenL : X.length = numRows.toNat := by omega
          rw [hXtake, hXlenL]
    refine ⟨mergeSchemas (mfRun files numRows offset).schemas,
      (mfRun files numRows offset).totalRows, ?_, hlenEq⟩
    simp only [read_data_from_multiple_files]
    rw [if_neg hdfs, hflat, hfinal]

theorem multiFileAccumulation_counterexample :
    read_data_from_multiple_files ([([], [])] : List (List Nat × SchemaT)) 1 0 =
      .error "No data could be read from any of the files" := by decide

theorem multiFileAccumulation_witness :
    ∃ merged total,
      read_data_from_multiple_files
          ([([1, 2, 3], []), ([4, 5, 6, 7], [])] : List (List Nat × SchemaT)) 1 5 =
        .ok (((rowsOf ([([1, 2, 3], []), ([4, 5, 6, 7], [])] :
            List (List Nat × SchemaT))).drop 5).take (1 : Int).toNat, merged, total) ∧
      (((rowsOf ([([1, 2, 3], []), ([4, 5, 6, 7], [])] :
            List (List Nat × SchemaT))).drop 5).take (1 : Int).toNat).length =
        min (1 : Int).toNat ((rowsOf ([([1, 2, 3], []), ([4, 5, 6, 7], [])] :
            List (List Nat × SchemaT))).length - 5) :=
  multiFileAccumulation ([([1, 2, 3], []), ([4, 5, 6, 7], [])] : List (List Nat × SchemaT))
    5 1 (by decide) (by decide)

/-- C4 (amended): when the limit is positive, every decoder invocation of the
multi-file loop receives `row_budget = current remaining_offset + limit` — the
full original limit, because `remaining_rows` is never decremented — not the
limit reduced by the rows already accumulated from earlier files. -/
theorem multiFileBudgetFullLimit {α} (files : List (List α × SchemaT)) (offset : Nat)
    (numRows : Int) (hl : 0 < numRows) :
    (mfRun files numRows offset).budgets =
      (mfRun files numRows offset).offTrace.map (fun w => w + numRows.toNat) :=
  mfLoop_budgets_shape numRows hl files (mfInit offset) rfl

theorem multiFileBudget_counterexample :
    (mfRun ([([10, 11], []), ([20, 21, 22, 23, 24], [])] :
        List (List Nat × SchemaT)) 3 0).budgets = [3, 3] ∧
    (3 : Nat) ≠ 0 + (3 - 2) := ⟨by decide, by decide⟩

theorem multiFileBudgetFullLimit_witness :
    (mfRun ([([1, 2], []), ([3, 4, 5], [])] : List (List Nat × SchemaT)) 2 1).budgets =
      (mfRun ([([1, 2], []), ([3, 4, 5], [])] : List (List Nat × SchemaT)) 2 1).offTrace.map
        (fun w => w + (2 : Int).toNat) :=
  multiFileBudgetFullLimit ([([1, 2], []), ([3, 4, 5], [])] : List (List Nat × SchemaT))
    1 2 (by decide)

/-- C8: with a positive limit the single-file reader folds offset and limit
into one decoder budget `offset + limit`, returns the decoded schema
unchanged, drops exactly the first `offset` decoded rows (an empty table when
the offset covers the whole decode), so the surviving rows are
`take limit (drop offset file)`. -/
theorem singleFileRead {α σ} (fileRows : List α) (schema : σ) (offset : Nat)
    (numRows : Int) (hl : 0 < numRows) :
    singleReadBudget offset numRows = offset + numRows.toNat ∧
    (read_data fileRows schema numRows offset).2 = schema ∧
    (read_data fileRows schema numRows offset).1 =
      (decodeRows fileRows (singleReadBudget offset numRows)).drop offset ∧
    (read_data fileRows schema numRows offset).1 =
      (fileRows.drop offset).take numRows.toNat ∧
    ((decodeRows fileRows (singleReadBudget offset numRows)).length ≤ offset →
      (read_data fileRows schema numRows offset).1 = []) := by
  have hbud : singleReadBudget offset numRows = offset + numRows.toNat := by
    simp [singleReadBudget, hl]
  have hdec : decodeRows fileRows (singleReadBudget offset numRows) =
      fileRows.take (offset + numRows.toNat) := by
    rw [hbud]
    exact decodeRows_pos _ (by omega)
  have hdrop : (read_data fileRows schema numRows offset).1 =
      (decodeRows fileRows (singleReadBudget offset numRows)).drop offset := by
    simp only [read_data]
    split_ifs with h1 h2
    · exact (List.drop_eq_nil_iff.mpr h2).symm
    · rfl
    · by_cases hoff : 0 < offset
      · have hdfe : (decodeRows fileRows (singleReadBudget offset numRows)).isEmpty = true := by
          by_contra hcon
          exact h1 ⟨hoff, hcon⟩
        rw [List.isEmpty_iff] at hdfe
        rw [hdfe]
        simp
      · have hoff0 : offset = 0 := by omega
        rw [hoff0, List.drop_zero]
  refine ⟨hbud, rfl, hdrop, ?_, ?_⟩
  · rw [hdrop, hdec, List.drop_take]
    congr 1
    omega
  · intro h
    rw [hdrop]
    exact List.drop_eq_nil_iff.mpr h

theorem singleFileRead_witness :
    singleReadBudget 8 5 = 8 + (5 : Int).toNat ∧
    (read_data ([1, 2, 3, 4, 5, 6, 7, 8, 9, 10] : List Nat) "s" 5 8).1 =
      (([1, 2, 3, 4, 5, 6, 7, 8, 9, 10] : List Nat).drop 8).take (5 : Int).toNat :=
  ⟨(singleFileRead ([1, 2, 3, 4, 5, 6, 7, 8, 9, 10] : List Nat) "s" 8 5 (by decide)).1,
   (singleFileRead ([1, 2, 3, 4, 5, 6, 7, 8, 9, 10] : List Nat) "s" 8 5 (by decide)).2.2.2.1⟩

/-- C10: every limit value that is zero or negative is treated as unbounded by
both readers: the single-file decoder budget is 0 and the result is everything
after the offset; every multi-file decoder budget is 0 and, whenever any file
has rows, the multi-file result is the whole cross-file stream after the
offset, with no limit truncation. -/
theorem nonpositiveLimitUnbounded {α} (files : List (List α × SchemaT))
    (fileRows : List α) (schema : SchemaT) (offset : Nat) (numRows : Int)
    (hl : numRows ≤ 0) :
    singleReadBudget offset numRows = 0 ∧
    (read_data fileRows schema numRows offset).1 = fileRows.drop offset ∧
    (∀ b ∈ (mfRun files numRows offset).budgets, b = 0) ∧
    (rowsOf files ≠ [] →
      ∃ merged total, read_data_from_multiple_files files numRows offset =
        .ok ((rowsOf files).drop offset, merged, total)) := by
  have hbud0 : singleReadBudget offset numRows = 0 := by
    have : ¬ 0 < numRows := by omega
    simp [singleReadBudget, this]
  refine ⟨hbud0, ?_, ?_, ?_⟩
  · have hdec : decodeRows fileRows (singleReadBudget offset numRows) = fileRows := by
      rw [hbud0]
      simp [decodeRows]
    simp only [read_data, hdec]
    split_ifs with h1 h2
    · exact (List.drop_eq_nil_iff.mpr h2).symm
    · rfl
    · by_cases hoff : 0 < offset
      · have hfe : fileRows.isEmpty = true := by
          by_contra hcon
          exact h1 ⟨hoff, hcon⟩
        rw [List.isEmpty_iff] at hfe
        rw [hfe]
        simp
      · have hoff0 : offset = 0 := by omega
        rw [hoff0, List.drop_zero]
  · intro b hb
    exact mfLoop_budgets_zero numRows hl files (mfInit offset)
      (by intro b hb; simp [mfInit] at hb) b hb
  · intro hne
    have hflat : (mfRun files numRows offset).dfs.flatten = (rowsOf files).drop offset := by
      have h := mfLoop_spec_nonpos numRows hl files (mfInit offset)
      simpa [mfRun, mfInit] using h
    by_cases hdfs : (mfRun files numRows offset).dfs.isEmpty
    · have hdfsnil : (mfRun files numRows offset).dfs = [] := List.isEmpty_iff.mp hdfs
      have hskip : 0 < (mfRun files numRows offset).rowsSkipped :=
        mfRun_skipped_of_empty files numRows offset hne hdfsnil
      have hdropnil : (rowsOf files).drop offset = [] := by
        rw [← hflat, hdfsnil]
        rfl
      refine ⟨[], (mfRun files numRows offset).totalRows, ?_⟩
      simp only [read_data_from_multiple_files]
      rw [if_pos hdfs, if_pos hskip, hdropnil]
    · refine ⟨mergeSchemas (mfRun files numRows offset).schemas,
        (mfRun files numRows offset).totalRows, ?_⟩
      simp only [read_data_from_multiple_files]
      rw [if_neg hdfs]
      have hnotrunc : ¬ (0 < numRows ∧
          numRows.toNat < (mfRun files numRows offset).dfs.flatten.length) := by
        rintro ⟨h0, _⟩
        omega
      rw [if_neg hnotrunc, hflat]

theorem nonpositiveLimitUnbounded_witness :
    ∃ merged total,
      read_data_from_multiple_files ([([1, 2], []), ([3], [])] :
          List (List Nat × SchemaT)) (-2) 1 =
        .ok ((rowsOf ([([1, 2], []), ([3], [])] : List (List Nat × SchemaT))).drop 1,
          merged, total) :=
  (nonpositiveLimitUnbounded ([([1, 2], []), ([3], [])] : List (List Nat × SchemaT))
    [] [] 1 (-2) (by decide)).2.2.2 (by decide)

end Cloudcat
